import Mathlib

/-!
Verification of the audiosync spectral landmark-matching pipeline.

This file gives a shallow embedding of the core of the repository
(`src/audiosync/impl.py`) and proves the specified properties about it.

Modelling conventions:
* Python dicts are insertion-ordered association lists `List (κ × ν)`;
  `d.setdefault(k, init).append(x)` and `d[k] = f(d.get(k, d0))` are both
  instances of the `upsert` combinator below, which updates the first entry
  with the matching key in place or appends a fresh entry at the end.
* Python exceptions become `Except PyErr`; each `PyErr` constructor is named
  after the concrete condition in the source that raises it.
* Machine floats are idealised as real numbers; `np.fft.fft` is the exact
  discrete Fourier transform over `ℂ`, and `np.round(-, 2)` is exact
  round-half-to-even at two decimal digits.
* The peak-selection and delay-voting stages never inspect the numeric type
  of the magnitudes beyond its order, so they are stated over any
  `LinearOrder`; concrete witnesses instantiate them at `ℚ`, where every
  step is computable.
-/

namespace AudioSync

/-! ### Association lists modelling insertion-ordered Python dicts -/

/-- Lookup of the first entry with the given key (Python `d[k]` / `k in d`). -/
def alookup {κ ν : Type} [DecidableEq κ] (k : κ) : List (κ × ν) → Option ν
  | [] => none
  | (k1, v) :: t => if k1 = k then some v else alookup k t

/-- Update the first entry with key `k` in place by `f`, or append `(k, i)` at
the end when the key is absent.  This is the shape shared by Python
`d.setdefault(k, []).append(x)` and `d[k] = d.get(k, 0) + 1`. -/
def upsert {κ ν : Type} [DecidableEq κ] (f : ν → ν) (i : ν) (k : κ) :
    List (κ × ν) → List (κ × ν)
  | [] => [(k, i)]
  | (k1, v) :: t => if k1 = k then (k1, f v) :: t else (k1, v) :: upsert f i k t

/-- Keys of an association list, in insertion order. -/
def keysOf {κ ν : Type} (l : List (κ × ν)) : List κ := l.map Prod.fst

/-- Successfulness of an `Except` result. -/
def exceptIsOk {ε α : Type} : Except ε α → Bool
  | .ok _ => true
  | .error _ => false

/-! ### Error conditions

Each constructor names the concrete condition under which the Python source
raises.  `zeroDivisionError`: the integer division computing `num_windows` in
`rolling_window` divides by `step_size = 0`.  `negativeDimensions`:
`np.lib.stride_tricks.as_strided` receives a negative `num_windows` in its
shape.  `invalidFFTLength`: `np.fft.fft` is applied to an empty frame.
`noCommonLandmarks`: `max` is applied to the empty delay histogram in
`synchronize`; in the source this surfaces as an unguarded `ValueError`, and
it fires exactly when the two peak maps share no frequency index, the
condition the documentation calls NoCommonLandmarks. -/
inductive PyErr : Type
  | zeroDivisionError
  | negativeDimensions
  | invalidFFTLength
  | noCommonLandmarks
  deriving DecidableEq

/-! ### Framer (`rolling_window`) -/

/-- Read of one element of a strided view.  Inside the padded buffer this is
an ordinary indexed read.  `numpy.lib.stride_tricks.as_strided` performs no
bounds checking, so a read outside the buffer yields unspecified memory; the
embedding returns `0` there as an explicit placeholder, and no theorem below
depends on values read out of bounds (the claims either restrict to
configurations whose reads are all in bounds, or only concern whether the
call fails). -/
def strideRead {α : Type} [Zero α] (l : List α) (idx : ℤ) : α :=
  if 0 ≤ idx then l.getD idx.toNat 0 else 0

/-- Shallow embedding of `rolling_window(arr, window_size, overlap, pad=True)`
(impl.py lines 31-63).  `num_windows = (length - window_size) // step_size + 1`
uses Python floor division (`Int.fdiv`); the array is padded with
`max(0, (num_windows - 1) * step_size + window_size - length)` trailing zeros;
the result is the strided view of shape `(num_windows, window_size)` with
strides `(step_size, 1)` over the padded buffer.  The two error constructors
reproduce the two places the Python call chain raises: division by a zero
`step_size`, and a negative first shape dimension passed to `as_strided`. -/
def rolling_window {α : Type} [Zero α] (arr : List α) (window_size overlap : ℕ) :
    Except PyErr (List (List α) × ℕ) :=
  let length : ℤ := arr.length
  let step_size : ℤ := (window_size : ℤ) - (overlap : ℤ)
  if step_size = 0 then .error .zeroDivisionError else
  let num_windows : ℤ := (length - (window_size : ℤ)).fdiv step_size + 1
  let padding : ℤ := max 0 ((num_windows - 1) * step_size + (window_size : ℤ) - length)
  let padded : List α := arr ++ List.replicate padding.toNat 0
  if num_windows < 0 then .error .negativeDimensions else
  .ok (((List.range num_windows.toNat).map fun (i : ℕ) =>
      (List.range window_size).map fun (j : ℕ) =>
        strideRead padded ((i : ℤ) * step_size + (j : ℤ))), num_windows.toNat)

/-! ### SpectralAnalyzer (`fourier_magnitudes`) -/

/-- Round half to even at integer precision, the rounding mode of `np.round`.
Stated via the floor and fractional part; for a tie the even neighbour wins. -/
noncomputable def roundHalfEven (x : ℝ) : ℤ :=
  if Int.fract x < 1 / 2 then ⌊x⌋
  else if 1 / 2 < Int.fract x then ⌊x⌋ + 1
  else if Even ⌊x⌋ then ⌊x⌋ else ⌊x⌋ + 1

/-- Embedding of `np.round(x, 2)`: scale by `10 ^ 2`, round half to even,
scale back. -/
noncomputable def npRound2 (x : ℝ) : ℝ := ((roundHalfEven (x * 100) : ℤ) : ℝ) / 100

/-- Coefficient `k` of the discrete Fourier transform computed by
`np.fft.fft(signal)`, idealised over `ℂ`:
`X_k = sum_j signal[j] * exp(-2 pi i j k / n)`. -/
noncomputable def dft (s : List ℝ) (k : ℕ) : ℂ :=
  ((List.range s.length).map fun j =>
    ((s.getD j 0 : ℝ) : ℂ) *
      Complex.exp (-2 * (Real.pi : ℂ) * Complex.I * (j : ℂ) * (k : ℂ) / (s.length : ℂ))).sum

/-- Shallow embedding of `fourier_magnitudes(signal)` (impl.py lines 6-28):
take the FFT, keep the magnitude of each coefficient, slice the first
`len // 2` entries, round each to 2 decimal places.  `np.fft.fft` raises on an
empty input, the only failure of this function; the source performs no check
of the frame length against `window_size`. -/
noncomputable def fourier_magnitudes (s : List ℝ) : Except PyErr (List ℝ) :=
  if s.length = 0 then .error .invalidFFTLength else
  let fft : List ℂ := (List.range s.length).map (dft s)
  let mag : List ℝ := fft.map Complex.abs
  let mag2 : List ℝ := mag.take (fft.length / 2)
  .ok (mag2.map npRound2)

/-! ### PeakSelector (`to_peaks`, binning and bounded top-K part) -/

/-- A candidate peak record `(value, window_index, frequency_index)` -- the
tuple `tup` built in the binning loop of `to_peaks`. -/
abbrev Cell (α : Type) : Type := α × ℕ × ℕ

/-- Cells of a magnitude matrix in iteration order of the nested loops of
`to_peaks`: outer loop over `zip(windows_indices, magnitudes)`, inner loop
over `enumerate(values)`. -/
def cellsOf {α : Type} (mags : List (List α)) : List (Cell α) :=
  mags.enum.flatMap fun wrow => wrow.2.enum.map fun fv => (fv.2, wrow.1, fv.1)

/-- Spectro-temporal bin key of a cell:
`(window_index // temporal_band, frequency_index // spectral_band)`. -/
def binKey (temporal_band spectral_band : ℕ) {α : Type} (c : Cell α) : ℕ × ℕ :=
  (c.2.1 / temporal_band, c.2.2 / spectral_band)

/-- The bins dictionary of `to_peaks`: every cell is appended to the bucket of
its bin key via `bins.setdefault(bin, []).append(tup)`. -/
def binsOf {α : Type} (mags : List (List α)) (temporal_band spectral_band : ℕ) :
    List ((ℕ × ℕ) × List (Cell α)) :=
  (cellsOf mags).foldl
    (fun bs c => upsert (fun cs => cs ++ [c]) [c] (binKey temporal_band spectral_band c) bs) []

/-- Insert a cell into a list sorted by descending value, after every cell of
strictly larger value and before the first cell of smaller or equal value. -/
def insertDesc {α : Type} [LinearOrder α] (c : Cell α) : List (Cell α) → List (Cell α)
  | [] => [c]
  | d :: t => if c.1 < d.1 then d :: insertDesc c t else c :: d :: t

/-- Stable sort by descending value.  Elements of equal value keep their
original relative order, matching the documented behaviour of
`heapq.nlargest(n, it, key)` (equivalent to a stable
`sorted(it, key=key, reverse=True)`). -/
def sortDesc {α : Type} [LinearOrder α] : List (Cell α) → List (Cell α)
  | [] => []
  | c :: t => insertDesc c (sortDesc t)

/-- Embedding of `heapq.nlargest(peaks_per_bin, bin_magnitudes, key=tup[0])`:
the first `k` elements of the stable descending sort. -/
def nlargest {α : Type} [LinearOrder α] (k : ℕ) (l : List (Cell α)) : List (Cell α) :=
  (sortDesc l).take k

/-- A peak map: `frequency_index -> list of window indices`, insertion
ordered, as built by the peaks dictionary of `to_peaks`. -/
abbrev PeakMap : Type := List (ℕ × List ℕ)

/-- One step `peaks.setdefault(frequency_index, []).append(window_index)`. -/
def pmAppend (pm : PeakMap) (frequency_index window_index : ℕ) : PeakMap :=
  upsert (fun ws => ws ++ [window_index]) [window_index] frequency_index pm

/-- The peak-selection stage of `to_peaks` (impl.py lines 95-108) as a
function of the magnitude matrix: bin all cells, keep the `peaks_per_bin`
largest per bin, and key every surviving cell by its frequency index alone.
Requires positive band sizes to be faithful (Python would raise
`ZeroDivisionError` on a zero band; the claims below always assume positive
bands except where the band size is irrelevant). -/
def to_peaks_from_magnitudes {α : Type} [LinearOrder α] (mags : List (List α))
    (spectral_band temporal_band peaks_per_bin : ℕ) : PeakMap :=
  (binsOf mags temporal_band spectral_band).foldl
    (fun pm bucket =>
      (nlargest peaks_per_bin bucket.2).foldl
        (fun pm2 c => pmAppend pm2 c.2.2 c.2.1) pm) []

/-- The list of window indices a peak map associates to a frequency index
(empty when the frequency is absent). -/
def peaksLookup (pm : PeakMap) (frequency_index : ℕ) : List ℕ :=
  (alookup frequency_index pm).getD []

/-! ### DelayEstimator (`synchronize`, lines 142-150) -/

/-- The pairs list of `synchronize`: for every key of `other_peaks` present in
`base_peaks`, the full cross product of the two window-index lists, in
iteration order. -/
def crossPairs (other_peaks base_peaks : PeakMap) : List (ℕ × ℕ) :=
  other_peaks.flatMap fun e =>
    match alookup e.1 base_peaks with
    | some lb => e.2.flatMap fun a => lb.map fun b => (a, b)
    | none => []

/-- One step `frequencies[d] = frequencies.get(d, 0) + 1`. -/
def bump (h : List (ℤ × ℕ)) (d : ℤ) : List (ℤ × ℕ) :=
  upsert (fun n => n + 1) 1 d h

/-- The delay histogram: count of every difference, keys in first-occurrence
order as in a Python dict. -/
def buildHist (ds : List ℤ) : List (ℤ × ℕ) := ds.foldl bump []

/-- Count stored in a histogram for a difference (0 when absent), the value
of `frequencies.get(d, 0)`. -/
def histCount (h : List (ℤ × ℕ)) (d : ℤ) : ℕ := (alookup d h).getD 0

/-- Embedding of `max(frequencies, key=frequencies.get)`: fold over the keys
in insertion order, replacing the current best only on a strictly larger
count, hence returning the first key attaining the maximal count.  On the
empty histogram Python raises an unguarded `ValueError`; the condition is
exactly the absence of common landmarks. -/
def dictMax (h : List (ℤ × ℕ)) : Except PyErr ℤ :=
  match h with
  | [] => .error .noCommonLandmarks
  | e :: t => .ok (t.foldl (fun best kv => if best.2 < kv.2 then kv else best) e).1

/-- The delay-estimation stage of `synchronize` on two already-computed peak
maps: cross-reference by frequency, histogram the differences
`other_frame - base_frame`, return the mode. -/
def synchronize_core (base_peaks other_peaks : PeakMap) : Except PyErr ℤ :=
  dictMax (buildHist ((crossPairs other_peaks base_peaks).map
    fun ab => (ab.1 : ℤ) - (ab.2 : ℤ)))

/-- Differences multiset fed into the histogram, named for the theorems. -/
def delayDiffs (base_peaks other_peaks : PeakMap) : List ℤ :=
  (crossPairs other_peaks base_peaks).map fun ab => (ab.1 : ℤ) - (ab.2 : ℤ)

/-- All pairwise differences over one list of integers -- the shape the delay
differences take per frequency when a peak map is matched against itself. -/
def selfDiffs (l : List ℤ) : List ℤ := l.flatMap fun a => l.map fun b => a - b

/-! ### Full pipeline over real signals -/

/-- Sequential application of a fallible function to every element, stopping
at the first error, as a Python loop applying `fourier_magnitudes` row by row
(`np.apply_along_axis`) would stop at the first raised exception. -/
def mapExcept {α β : Type} (f : α → Except PyErr β) : List α → Except PyErr (List β)
  | [] => .ok []
  | a :: t =>
    match f a with
    | .error e => .error e
    | .ok b =>
      match mapExcept f t with
      | .error e => .error e
      | .ok bs => .ok (b :: bs)

/-- Embedding of `to_peaks(signal, ...)` (impl.py lines 66-108): frame the
signal, take per-frame spectral magnitudes, then select peaks.  Errors of the
framer and of the spectral analyzer propagate, as the corresponding Python
exceptions would. -/
noncomputable def to_peaks (signal : List ℝ)
    (window_size overlap spectral_band temporal_band peaks_per_bin : ℕ) :
    Except PyErr PeakMap :=
  match rolling_window signal window_size overlap with
  | .error e => .error e
  | .ok wr =>
    match mapExcept fourier_magnitudes wr.1 with
    | .error e => .error e
    | .ok mags => .ok (to_peaks_from_magnitudes mags spectral_band temporal_band peaks_per_bin)

/-- Embedding of `synchronize(base_signal, other_signal, ...)` (impl.py lines
111-150). -/
noncomputable def synchronize (base_signal other_signal : List ℝ)
    (window_size overlap spectral_band temporal_band peaks_per_bin : ℕ) :
    Except PyErr ℤ :=
  match to_peaks base_signal window_size overlap spectral_band temporal_band peaks_per_bin with
  | .error e => .error e
  | .ok base_peaks =>
    match to_peaks other_signal window_size overlap spectral_band temporal_band
        peaks_per_bin with
    | .error e => .error e
    | .ok other_peaks => synchronize_core base_peaks other_peaks

/-! ### Association-list lemmas -/

theorem alookup_upsert_self {κ ν : Type} [DecidableEq κ] (f : ν → ν) (i : ν) (k : κ)
    (l : List (κ × ν)) :
    alookup k (upsert f i k l) = some (((alookup k l).map f).getD i) := by
  induction l with
  | nil => simp [alookup, upsert]
  | cons h t ih =>
    obtain ⟨k1, v⟩ := h
    by_cases hk : k1 = k
    · subst hk; simp [alookup, upsert]
    · simp [alookup, upsert, hk, ih]

theorem alookup_upsert_ne {κ ν : Type} [DecidableEq κ] (f : ν → ν) (i : ν) (k k2 : κ)
    (l : List (κ × ν)) (hne : k2 ≠ k) :
    alookup k2 (upsert f i k l) = alookup k2 l := by
  have hkk : k ≠ k2 := fun h => hne h.symm
  induction l with
  | nil => simp [alookup, upsert, hkk]
  | cons h t ih =>
    obtain ⟨k1, v⟩ := h
    by_cases hk : k1 = k
    · subst hk
      simp [alookup, upsert, hkk]
    · by_cases hk2 : k1 = k2
      · subst hk2
        simp [alookup, upsert, hk]
      · simp [alookup, upsert, hk, hk2, ih]

theorem keysOf_upsert {κ ν : Type} [DecidableEq κ] (f : ν → ν) (i : ν) (k : κ)
    (l : List (κ × ν)) :
    keysOf (upsert f i k l) = if k ∈ keysOf l then keysOf l else keysOf l ++ [k] := by
  induction l with
  | nil => simp [keysOf, upsert]
  | cons h t ih =>
    obtain ⟨k1, v⟩ := h
    by_cases hk : k1 = k
    · subst hk; simp [keysOf, upsert]
    · have hkk : ¬ k = k1 := fun h => hk h.symm
      simp only [keysOf, List.map_cons, upsert, hk, if_false] at ih ⊢
      by_cases hmem : k ∈ List.map Prod.fst t
      · have hm2 : k ∈ k1 :: List.map Prod.fst t := List.mem_cons_of_mem _ hmem
        simp only [hm2, if_true, hmem] at ih ⊢
        rw [ih]
      · have hm2 : ¬ k ∈ k1 :: List.map Prod.fst t := by
          simp [hkk, hmem]
        simp only [hm2, if_false, hmem] at ih ⊢
        rw [ih, List.cons_append]

theorem keysOf_upsert_nodup {κ ν : Type} [DecidableEq κ] (f : ν → ν) (i : ν) (k : κ)
    (l : List (κ × ν)) (h : (keysOf l).Nodup) : (keysOf (upsert f i k l)).Nodup := by
  rw [keysOf_upsert]
  by_cases hmem : k ∈ keysOf l
  · simpa [hmem]
  · have hdisj : (keysOf l).Disjoint [k] := by
      intro a ha hb
      rcases List.mem_singleton.mp hb with rfl
      exact hmem ha
    simpa [hmem] using List.Nodup.append h (List.nodup_singleton k) hdisj

theorem upsert_ne_nil {κ ν : Type} [DecidableEq κ] (f : ν → ν) (i : ν) (k : κ)
    (l : List (κ × ν)) : upsert f i k l ≠ [] := by
  cases l with
  | nil => simp [upsert]
  | cons h t =>
    obtain ⟨k1, v⟩ := h
    by_cases hk : k1 = k <;> simp [upsert, hk]

theorem upsert_headKey {κ ν : Type} [DecidableEq κ] (f : ν → ν) (i : ν) (k : κ)
    (l : List (κ × ν)) (h : l ≠ []) :
    (upsert f i k l).head?.map Prod.fst = l.head?.map Prod.fst := by
  cases l with
  | nil => exact absurd rfl h
  | cons hd t =>
    obtain ⟨k1, v⟩ := hd
    by_cases hk : k1 = k <;> simp [upsert, hk]

theorem alookup_of_mem_of_nodupKeys {κ ν : Type} [DecidableEq κ] (k : κ) (v : ν)
    (l : List (κ × ν)) (hmem : (k, v) ∈ l) (hnd : (keysOf l).Nodup) :
    alookup k l = some v := by
  induction l with
  | nil => cases hmem
  | cons hd t ih =>
    obtain ⟨k1, v1⟩ := hd
    rcases List.mem_cons.mp hmem with heq | htail
    · obtain ⟨rfl, rfl⟩ := Prod.mk.inj heq
      simp [alookup]
    · have hk1 : k1 ≠ k := by
        rintro rfl
        exact (List.nodup_cons.mp (by simpa [keysOf] using hnd)).1
          (List.mem_map_of_mem Prod.fst htail)
      simp only [alookup, hk1, if_false]
      exact ih htail (by simpa [keysOf] using (List.nodup_cons.mp
        (by simpa [keysOf] using hnd)).2)

theorem mem_of_alookup_eq_some {κ ν : Type} [DecidableEq κ] (k : κ) (v : ν)
    (l : List (κ × ν)) (h : alookup k l = some v) : (k, v) ∈ l := by
  induction l with
  | nil => simp [alookup] at h
  | cons hd t ih =>
    obtain ⟨k1, v1⟩ := hd
    by_cases hk : k1 = k
    · subst hk
      simp [alookup] at h
      simp [h]
    · simp only [alookup, hk, if_false] at h
      exact List.mem_cons_of_mem _ (ih h)

theorem alookup_isSome_of_mem_keys {κ ν : Type} [DecidableEq κ] (k : κ)
    (l : List (κ × ν)) (h : k ∈ keysOf l) : (alookup k l).isSome := by
  induction l with
  | nil => simp [keysOf] at h
  | cons hd t ih =>
    obtain ⟨k1, v1⟩ := hd
    by_cases hk : k1 = k
    · simp [alookup, hk]
    · simp only [alookup, hk, if_false]
      exact ih (by
        rcases (by simpa [keysOf] using h) with h1 | h1
        · exact absurd h1.symm hk
        · simpa [keysOf] using h1)

theorem not_mem_keys_of_alookup_eq_none {κ ν : Type} [DecidableEq κ] (k : κ)
    (l : List (κ × ν)) (h : alookup k l = none) : k ∉ keysOf l := by
  intro hmem
  have := alookup_isSome_of_mem_keys k l hmem
  rw [h] at this
  simp at this

/-! ### Framer lemmas -/

theorem getD_replicate_zero {α : Type} [Zero α] (p n : ℕ) :
    (List.replicate p (0 : α)).getD n 0 = 0 := by
  rcases Nat.lt_or_ge n p with h | h
  · simp [List.getD_eq_getElem?_getD, List.getElem?_replicate, h]
  · simp [List.getD_eq_getElem?_getD, List.getElem?_eq_none, h]

theorem getD_append_replicate_zero {α : Type} [Zero α] (l : List α) (p n : ℕ)
    (h : l.length ≤ n) : (l ++ List.replicate p (0 : α)).getD n 0 = 0 := by
  rw [List.getD_append_right _ _ _ _ h, getD_replicate_zero]

/-- Claim C3.  For a signal of length `L >= window_size` and a valid window
configuration `window_size > overlap >= 0`, the framer succeeds and returns
exactly `num_windows = (L - window_size) / step_size + 1` frames, each of
length `window_size` (both facts visible in the `List.range` structure of the
right-hand side), where frame `i` reads sample `i * step_size + j` of the
signal and every position past the end of the signal reads as zero, i.e. the
trailing zero padding. -/
theorem C3_framer_contract {α : Type} [Zero α] (arr : List α) (window_size overlap : ℕ)
    (hov : overlap < window_size) (hL : window_size ≤ arr.length) :
    (rolling_window arr window_size overlap).toOption =
      some (((List.range ((arr.length - window_size) / (window_size - overlap) + 1)).map
          fun i => (List.range window_size).map fun j =>
            if i * (window_size - overlap) + j < arr.length
            then arr.getD (i * (window_size - overlap) + j) 0 else 0),
        (arr.length - window_size) / (window_size - overlap) + 1) := by
  have hstep : ((window_size : ℤ) - (overlap : ℤ)) = ((window_size - overlap : ℕ) : ℤ) := by
    push_cast [Nat.cast_sub hov.le]
    ring
  have hstep_pos : (0 : ℤ) < (window_size : ℤ) - (overlap : ℤ) := by
    have := hov
    omega
  have hstep_ne : ¬ ((window_size : ℤ) - (overlap : ℤ) = 0) := by omega
  have hlen : ((arr.length : ℤ) - (window_size : ℤ)) = ((arr.length - window_size : ℕ) : ℤ) := by
    push_cast [Nat.cast_sub hL]
    ring
  have hnw : ((arr.length : ℤ) - (window_size : ℤ)).fdiv ((window_size : ℤ) - (overlap : ℤ)) + 1
      = (((arr.length - window_size) / (window_size - overlap) + 1 : ℕ) : ℤ) := by
    rw [hlen, hstep, Int.fdiv_eq_ediv _ (by positivity), ← Int.ofNat_ediv]
    push_cast
    ring
  have hnw_nonneg : ¬ (((arr.length : ℤ) - (window_size : ℤ)).fdiv
      ((window_size : ℤ) - (overlap : ℤ)) + 1 < 0) := by
    rw [hnw]
    exact not_lt.mpr (by exact_mod_cast Nat.zero_le _)
  rw [rolling_window]
  simp only [hstep_ne, if_false, hnw_nonneg, Except.toOption]
  rw [hnw]
  simp only [Int.toNat_ofNat]
  congr 1
  refine Prod.ext ?_ rfl
  dsimp only
  apply List.map_congr_left
  intro i hi
  apply List.map_congr_left
  intro j hj
  rw [List.mem_range] at hi hj
  have hidx : ((i : ℤ) * ((window_size : ℤ) - (overlap : ℤ)) + (j : ℤ))
      = ((i * (window_size - overlap) + j : ℕ) : ℤ) := by
    rw [hstep]; push_cast; ring
  rw [hidx, strideRead, if_pos (by positivity), Int.toNat_ofNat]
  rcases Nat.lt_or_ge (i * (window_size - overlap) + j) arr.length with hin | hout
  · rw [if_pos hin, List.getD_append _ _ _ _ hin]
  · rw [if_neg (by omega), getD_append_replicate_zero _ _ _ hout]

/-- Witness for C3 at `arr = [1,2,3]`, `window_size = 2`, `overlap = 1`:
two frames `[1,2]` and `[2,3]`. -/
theorem C3_framer_contract_witness :
    (1 < 2 ∧ 2 ≤ ([1, 2, 3] : List ℤ).length) ∧
    (rolling_window ([1, 2, 3] : List ℤ) 2 1).toOption = some ([[1, 2], [2, 3]], 2) := by
  refine ⟨⟨by decide, by decide⟩, ?_⟩
  have h := C3_framer_contract ([1, 2, 3] : List ℤ) 2 1 (by decide) (by decide)
  rw [h]
  rfl

/-- Claim C8, amended.  The framer contains no validation of the window
configuration.  Its exact failure behaviour is: an unguarded division by zero
when `step_size = 0`; an unguarded negative-dimensions error from the strided
view when the computed `num_windows` is negative; and in every other case,
including configurations with `step_size < 0`, the call returns without any
failure. -/
theorem C8_framer_no_validation {α : Type} [Zero α] (arr : List α)
    (window_size overlap : ℕ) :
    (window_size = overlap →
      rolling_window arr window_size overlap = .error .zeroDivisionError) ∧
    (window_size ≠ overlap →
      ((arr.length : ℤ) - window_size).fdiv ((window_size : ℤ) - overlap) + 1 < 0 →
      rolling_window arr window_size overlap = .error .negativeDimensions) ∧
    (window_size ≠ overlap →
      0 ≤ ((arr.length : ℤ) - window_size).fdiv ((window_size : ℤ) - overlap) + 1 →
      exceptIsOk (rolling_window arr window_size overlap) = true) := by
  refine ⟨fun heq => ?_, fun hne hneg => ?_, fun hne hnn => ?_⟩
  · subst heq
    rw [rolling_window]
    simp
  · have hz : ¬ ((window_size : ℤ) - (overlap : ℤ) = 0) := by
      intro h
      exact hne (by exact_mod_cast sub_eq_zero.mp h)
    rw [rolling_window]
    simp only [hz, if_false, hneg, if_true]
  · have hz : ¬ ((window_size : ℤ) - (overlap : ℤ) = 0) := by
      intro h
      exact hne (by exact_mod_cast sub_eq_zero.mp h)
    rw [rolling_window]
    simp only [hz, if_false, not_lt.mpr hnn, if_false, exceptIsOk]

/-- Witness for the amended C8: the three behaviours at concrete inputs.
`window_size = overlap = 2` divides by zero; a length-10 signal with
`window_size = 1 < overlap = 2` computes `num_windows = -8` and hits the
negative-dimensions error; `window_size = 2, overlap = 0` on the empty signal
succeeds (with zero windows). -/
theorem C8_framer_no_validation_witness :
    rolling_window ([] : List ℤ) 2 2 = .error .zeroDivisionError ∧
    rolling_window (List.replicate 10 (0 : ℤ)) 1 2 = .error .negativeDimensions ∧
    exceptIsOk (rolling_window ([] : List ℤ) 2 0) = true := by
  refine ⟨(C8_framer_no_validation ([] : List ℤ) 2 2).1 rfl,
    (C8_framer_no_validation (List.replicate 10 (0 : ℤ)) 1 2).2.1 (by decide) (by decide),
    (C8_framer_no_validation ([] : List ℤ) 2 0).2.2 (by decide) (by decide)⟩

/-- Counterexample to C8 as stated: with `window_size = 3`, `overlap = 4` the
step size `-1` is non-positive, yet on the one-sample signal `[0]` the framer
does not fail at all -- it computes `num_windows = 3` and returns a strided
view (whose out-of-range reads are unspecified memory in numpy).  No
`InvalidWindowConfiguration` condition exists in the code. -/
theorem C8_counterexample :
    ((3 : ℤ) - (4 : ℤ) ≤ 0) ∧
    exceptIsOk (rolling_window ([0] : List ℤ) 3 4) = true := by
  exact ⟨by decide, rfl⟩

/-! ### Histogram lemmas -/

theorem histCount_bump (h : List (ℤ × ℕ)) (d e : ℤ) :
    histCount (bump h d) e = histCount h e + if e = d then 1 else 0 := by
  by_cases hed : e = d
  · subst hed
    rw [histCount, bump, alookup_upsert_self]
    cases halo : alookup e h <;> simp [histCount, halo]
  · rw [histCount, bump, alookup_upsert_ne _ _ _ _ _ hed]
    simp [histCount, hed]

theorem histCount_foldl_bump (ds : List ℤ) : ∀ (h : List (ℤ × ℕ)) (e : ℤ),
    histCount (ds.foldl bump h) e = histCount h e + ds.count e := by
  induction ds with
  | nil => intro h e; simp
  | cons d t ih =>
    intro h e
    rw [List.foldl_cons, ih, histCount_bump, List.count_cons]
    by_cases hed : e = d <;> simp [hed, beq_iff_eq] <;> omega

theorem histCount_buildHist (ds : List ℤ) (e : ℤ) :
    histCount (buildHist ds) e = ds.count e := by
  rw [buildHist, histCount_foldl_bump]
  simp [histCount, alookup]

theorem buildHist_nodupKeys (ds : List ℤ) : (keysOf (buildHist ds)).Nodup := by
  suffices hgen : ∀ (h : List (ℤ × ℕ)), (keysOf h).Nodup →
      (keysOf (ds.foldl bump h)).Nodup by
    exact hgen [] (by simp [keysOf])
  induction ds with
  | nil => intro h hh; simpa using hh
  | cons d t ih =>
    intro h hh
    exact ih _ (keysOf_upsert_nodup _ _ _ _ hh)

theorem buildHist_mem_count (ds : List ℤ) (d : ℤ) (v : ℕ)
    (hmem : (d, v) ∈ buildHist ds) : v = ds.count d := by
  have := alookup_of_mem_of_nodupKeys d v (buildHist ds) hmem (buildHist_nodupKeys ds)
  have h2 := histCount_buildHist ds d
  rw [histCount, this] at h2
  simpa using h2

theorem buildHist_ne_nil (ds : List ℤ) (h : ds ≠ []) : buildHist ds ≠ [] := by
  suffices hgen : ∀ (acc : List (ℤ × ℕ)) (l : List ℤ), acc ≠ [] → l.foldl bump acc ≠ [] by
    cases ds with
    | nil => exact absurd rfl h
    | cons d t =>
      rw [buildHist, List.foldl_cons]
      exact hgen _ t (upsert_ne_nil _ _ _ _)
  intro acc l
  induction l generalizing acc with
  | nil => intro h2; simpa using h2
  | cons d t ih => intro h2; exact ih _ (upsert_ne_nil _ _ _ _)

theorem buildHist_headKey (d : ℤ) (ds : List ℤ) :
    (buildHist (d :: ds)).head?.map Prod.fst = some d := by
  suffices hgen : ∀ (acc : List (ℤ × ℕ)) (l : List ℤ), acc ≠ [] →
      (l.foldl bump acc).head?.map Prod.fst = acc.head?.map Prod.fst by
    rw [buildHist, List.foldl_cons]
    rw [hgen _ ds (by simp [bump, upsert])]
    simp [bump, upsert, alookup]
  intro acc l
  induction l generalizing acc with
  | nil => intro _; rfl
  | cons e t ih =>
    intro hne
    rw [List.foldl_cons,
      ih (bump acc e) (by rw [bump]; exact upsert_ne_nil _ _ _ _)]
    rw [bump]
    exact upsert_headKey _ _ _ _ hne

/-! ### Mode-extraction (`max(frequencies, key=frequencies.get)`) lemmas -/

theorem foldBest_spec (t : List (ℤ × ℕ)) : ∀ (acc : ℤ × ℕ),
    (t.foldl (fun best kv => if best.2 < kv.2 then kv else best) acc = acc ∨
      t.foldl (fun best kv => if best.2 < kv.2 then kv else best) acc ∈ t) ∧
    acc.2 ≤ (t.foldl (fun best kv => if best.2 < kv.2 then kv else best) acc).2 ∧
    ∀ kv ∈ t, kv.2 ≤ (t.foldl (fun best kv => if best.2 < kv.2 then kv else best) acc).2 := by
  induction t with
  | nil => intro acc; simp
  | cons e t ih =>
    intro acc
    rw [List.foldl_cons]
    by_cases hlt : acc.2 < e.2
    · obtain ⟨hmem, hle, hall⟩ := ih e
      rw [if_pos hlt]
      refine ⟨?_, le_trans hlt.le hle, ?_⟩
      · rcases hmem with hm | hm
        · exact Or.inr (by rw [hm]; exact List.mem_cons_self e t)
        · exact Or.inr (List.mem_cons_of_mem _ hm)
      · intro kv hkv
        rcases List.mem_cons.mp hkv with rfl | hkv2
        · exact hle
        · exact hall kv hkv2
    · obtain ⟨hmem, hle, hall⟩ := ih acc
      rw [if_neg hlt]
      refine ⟨?_, hle, ?_⟩
      · rcases hmem with hm | hm
        · exact Or.inl hm
        · exact Or.inr (List.mem_cons_of_mem _ hm)
      · intro kv hkv
        rcases List.mem_cons.mp hkv with rfl | hkv2
        · exact le_trans (not_lt.mp hlt) hle
        · exact hall kv hkv2

theorem dictMax_spec (h : List (ℤ × ℕ)) (d : ℤ) (hok : dictMax h = .ok d) :
    ∃ v : ℕ, (d, v) ∈ h ∧ ∀ kv ∈ h, kv.2 ≤ v := by
  cases h with
  | nil => simp [dictMax] at hok
  | cons e t =>
    rw [dictMax] at hok
    obtain ⟨hmem, hle, hall⟩ := foldBest_spec t e
    set r := t.foldl (fun best kv => if best.2 < kv.2 then kv else best) e with hr
    have hd : r.1 = d := by simpa using hok
    refine ⟨r.2, ?_, ?_⟩
    · have : r = (d, r.2) := by
        rw [← hd]
      rcases hmem with hm | hm
      · exact this ▸ hm ▸ List.mem_cons_self e t
      · exact this ▸ List.mem_cons_of_mem _ hm
    · intro kv hkv
      rcases List.mem_cons.mp hkv with rfl | hkv2
      · exact hle
      · exact hall kv hkv2

theorem foldBest_const (t : List (ℤ × ℕ)) : ∀ (e : ℤ × ℕ), (∀ kv ∈ t, kv.2 ≤ e.2) →
    t.foldl (fun best kv => if best.2 < kv.2 then kv else best) e = e := by
  induction t with
  | nil => intro e _; rfl
  | cons kv t ih =>
    intro e hmax
    rw [List.foldl_cons, if_neg (not_lt.mpr (hmax kv (List.mem_cons_self kv t)))]
    exact ih e fun kv2 h2 => hmax kv2 (List.mem_cons_of_mem _ h2)

theorem dictMax_head_of_max (e : ℤ × ℕ) (t : List (ℤ × ℕ))
    (hmax : ∀ kv ∈ t, kv.2 ≤ e.2) : dictMax (e :: t) = .ok e.1 := by
  rw [dictMax]
  rw [foldBest_const t e hmax]

/-! ### Delay-estimator claim theorems -/

/-- Claim C1.  Whenever `synchronize` returns a delay `d` from two peak maps,
the delay histogram it built contains, for every offset `e`, exactly the
number of cross-product pairs (over the frequency indices present in both
maps) whose difference `other_frame - base_frame` equals `e`; and the count
of the returned delay `d` is the maximum count of the histogram, i.e. `d` is
a mode of the difference distribution. -/
theorem C1_histogram_mode (base_peaks other_peaks : PeakMap) (d : ℤ)
    (h : synchronize_core base_peaks other_peaks = .ok d) :
    (∀ e : ℤ, histCount (buildHist (delayDiffs base_peaks other_peaks)) e =
      (delayDiffs base_peaks other_peaks).count e) ∧
    (∀ e : ℤ, (delayDiffs base_peaks other_peaks).count e ≤
      (delayDiffs base_peaks other_peaks).count d) := by
  refine ⟨fun e => histCount_buildHist _ e, fun e => ?_⟩
  rw [synchronize_core] at h
  obtain ⟨v, hmem, hall⟩ := dictMax_spec _ _ h
  have hv : v = (delayDiffs base_peaks other_peaks).count d :=
    buildHist_mem_count _ _ _ hmem
  rcases halo : alookup e (buildHist (delayDiffs base_peaks other_peaks)) with _ | v2
  · have : histCount (buildHist (delayDiffs base_peaks other_peaks)) e = 0 := by
      simp [histCount, halo]
    rw [histCount_buildHist] at this
    rw [this]
    exact Nat.zero_le _
  · have hmem2 := mem_of_alookup_eq_some _ _ _ halo
    have hv2 : v2 = (delayDiffs base_peaks other_peaks).count e :=
      buildHist_mem_count _ _ _ hmem2
    have := hall _ hmem2
    simp only at this
    omega

/-- Witness for C1: `base = {5: [1, 3]}`, `other = {5: [2]}` gives differences
`[1, -1]`; the returned delay `1` has count `1`, which is maximal. -/
theorem C1_histogram_mode_witness :
    synchronize_core [(5, [1, 3])] [(5, [2])] = .ok 1 ∧
    histCount (buildHist (delayDiffs [(5, [1, 3])] [(5, [2])])) (-1) =
      (delayDiffs [(5, [1, 3])] [(5, [2])]).count (-1) ∧
    (delayDiffs [(5, [1, 3])] [(5, [2])]).count (-1) ≤
      (delayDiffs [(5, [1, 3])] [(5, [2])]).count 1 :=
  ⟨rfl, (C1_histogram_mode [(5, [1, 3])] [(5, [2])] 1 rfl).1 (-1),
    (C1_histogram_mode [(5, [1, 3])] [(5, [2])] 1 rfl).2 (-1)⟩

theorem crossPairs_eq_nil (base_peaks other_peaks : PeakMap)
    (hdisj : ∀ k, k ∈ keysOf other_peaks → k ∉ keysOf base_peaks) :
    crossPairs other_peaks base_peaks = [] := by
  rw [crossPairs, List.flatMap_eq_nil_iff]
  intro e he
  rcases halo : alookup e.1 base_peaks with _ | lb
  · simp
  · exact absurd (by
      simpa [keysOf] using List.mem_map_of_mem Prod.fst
        (mem_of_alookup_eq_some _ _ _ halo))
      (hdisj e.1 (by simpa [keysOf] using List.mem_map_of_mem Prod.fst he))

/-- Claim C2.  When the two peak maps share no frequency index, `synchronize`
does not return a numeric delay: the pairs list and hence the delay histogram
are empty, and the mode extraction fails.  In the Python source this failure
is the unguarded `ValueError` raised by `max` on an empty mapping; the
embedding labels that error value by its triggering condition,
`noCommonLandmarks`. -/
theorem C2_no_common_landmarks (base_peaks other_peaks : PeakMap)
    (hdisj : ∀ k, k ∈ keysOf other_peaks → k ∉ keysOf base_peaks) :
    synchronize_core base_peaks other_peaks = .error .noCommonLandmarks := by
  rw [synchronize_core, crossPairs_eq_nil base_peaks other_peaks hdisj]
  rfl

/-- Witness for C2: maps `{0: [0]}` and `{1: [0]}` share no frequency. -/
theorem C2_no_common_landmarks_witness :
    (∀ k, k ∈ keysOf ([(1, [0])] : PeakMap) → k ∉ keysOf ([(0, [0])] : PeakMap)) ∧
    synchronize_core [(0, [0])] [(1, [0])] = .error .noCommonLandmarks :=
  ⟨by decide, C2_no_common_landmarks [(0, [0])] [(1, [0])] (by decide)⟩

/-! ### Degenerate peak budget (claim C10) -/

theorem foldl_const {β γ : Type} (l : List γ) (init : β) :
    l.foldl (fun b _ => b) init = init := by
  induction l generalizing init with
  | nil => rfl
  | cons a t ih => rw [List.foldl_cons]; exact ih init

theorem to_peaks_from_magnitudes_zero {α : Type} [LinearOrder α] (mags : List (List α))
    (spectral_band temporal_band : ℕ) :
    to_peaks_from_magnitudes mags spectral_band temporal_band 0 = [] := by
  rw [to_peaks_from_magnitudes]
  simp only [nlargest, List.take_zero, List.foldl_nil]
  exact foldl_const _ _

/-- Claim C10.  With `peaks_per_bin = 0` the peak selector returns the empty
peak map on every input, so the delay histogram is always empty and
`synchronize` never returns a numeric delay for any pair of signals,
including a signal against an exact copy of itself (whatever the failure of
the earlier stages, the call cannot succeed). -/
theorem C10_zero_peaks_per_bin :
    (∀ (α : Type) [LinearOrder α] (mags : List (List α)) (spectral_band temporal_band : ℕ),
      to_peaks_from_magnitudes mags spectral_band temporal_band 0 = []) ∧
    (∀ (base_signal other_signal : List ℝ)
      (window_size overlap spectral_band temporal_band : ℕ) (d : ℤ),
      synchronize base_signal other_signal window_size overlap spectral_band temporal_band 0
        ≠ .ok d) := by
  refine ⟨fun α _ mags sb tb => to_peaks_from_magnitudes_zero mags sb tb, ?_⟩
  intro b o w ov sb tb d h
  rw [synchronize] at h
  cases htp1 : to_peaks b w ov sb tb 0 with
  | error e => rw [htp1] at h; exact absurd h (by simp)
  | ok bp =>
    cases htp2 : to_peaks o w ov sb tb 0 with
    | error e => rw [htp1, htp2] at h; exact absurd h (by simp)
    | ok op =>
      rw [htp1, htp2] at h
      have hbp : bp = [] := by
        rw [to_peaks] at htp1
        split at htp1
        · exact absurd htp1 (by simp)
        · split at htp1
          · exact absurd htp1 (by simp)
          · simp only [Except.ok.injEq] at htp1
            rw [← htp1, to_peaks_from_magnitudes_zero]
      have hop : op = [] := by
        rw [to_peaks] at htp2
        split at htp2
        · exact absurd htp2 (by simp)
        · split at htp2
          · exact absurd htp2 (by simp)
          · simp only [Except.ok.injEq] at htp2
            rw [← htp2, to_peaks_from_magnitudes_zero]
      rw [hbp, hop] at h
      exact absurd h (by simp [synchronize_core, crossPairs, buildHist, dictMax])

/-- Witness for C10 at concrete inputs: an empty peak map from a non-empty
rational matrix, and a failing synchronisation of a one-sample signal against
its own copy. -/
theorem C10_zero_peaks_per_bin_witness :
    to_peaks_from_magnitudes ([[1]] : List (List ℚ)) 2 3 0 = [] ∧
    synchronize [(0 : ℝ)] [(0 : ℝ)] 1 0 1 1 0 ≠ .ok 5 :=
  ⟨C10_zero_peaks_per_bin.1 ℚ ([[1]] : List (List ℚ)) 2 3,
    C10_zero_peaks_per_bin.2 [(0 : ℝ)] [(0 : ℝ)] 1 0 1 1 5⟩

/-! ### Stable descending selection lemmas -/

theorem insertDesc_perm {α : Type} [LinearOrder α] (c : Cell α) (l : List (Cell α)) :
    List.Perm (insertDesc c l) (c :: l) := by
  induction l with
  | nil => exact List.Perm.refl _
  | cons d t ih =>
    rw [insertDesc]
    by_cases h : c.1 < d.1
    · rw [if_pos h]
      exact (ih.cons d).trans (List.Perm.swap c d t)
    · rw [if_neg h]

theorem sortDesc_perm {α : Type} [LinearOrder α] (l : List (Cell α)) :
    List.Perm (sortDesc l) l := by
  induction l with
  | nil => exact List.Perm.refl _
  | cons c t ih =>
    rw [sortDesc]
    exact (insertDesc_perm c (sortDesc t)).trans (ih.cons c)

theorem insertDesc_pairwise {α : Type} [LinearOrder α] (c : Cell α) (l : List (Cell α))
    (h : l.Pairwise fun a b => b.1 ≤ a.1) :
    (insertDesc c l).Pairwise fun a b => b.1 ≤ a.1 := by
  induction l with
  | nil => simp [insertDesc]
  | cons d t ih =>
    obtain ⟨hd, ht⟩ := List.pairwise_cons.mp h
    rw [insertDesc]
    by_cases hlt : c.1 < d.1
    · rw [if_pos hlt]
      refine List.pairwise_cons.mpr ⟨?_, ih ht⟩
      intro x hx
      rcases List.mem_cons.mp ((insertDesc_perm c t).mem_iff.mp hx) with rfl | hxt
      · exact hlt.le
      · exact hd x hxt
    · rw [if_neg hlt]
      refine List.pairwise_cons.mpr ⟨?_, h⟩
      intro x hx
      rcases List.mem_cons.mp hx with rfl | hxt
      · exact not_lt.mp hlt
      · exact le_trans (hd x hxt) (not_lt.mp hlt)

theorem sortDesc_pairwise {α : Type} [LinearOrder α] (l : List (Cell α)) :
    (sortDesc l).Pairwise fun a b => b.1 ≤ a.1 := by
  induction l with
  | nil => simp [sortDesc]
  | cons c t ih => exact insertDesc_pairwise c (sortDesc t) ih

theorem countP_gt_lt_of_mem_take {α : Type} [LinearOrder α] (s : List (Cell α)) :
    ∀ (k : ℕ) (c : Cell α), s.Pairwise (fun a b => b.1 ≤ a.1) → c ∈ s.take k →
    s.countP (fun y => decide (c.1 < y.1)) < k := by
  induction s with
  | nil =>
    intro k c _ hc
    simp at hc
  | cons x t ih =>
    intro k c hp hc
    cases k with
    | zero => simp at hc
    | succ k2 =>
      obtain ⟨hd, ht⟩ := List.pairwise_cons.mp hp
      rw [List.take_succ_cons] at hc
      rcases List.mem_cons.mp hc with rfl | hct
      · have h0 : t.countP (fun y => decide (c.1 < y.1)) = 0 :=
          List.countP_eq_zero.mpr fun y hy => by simpa using not_lt.mpr (hd y hy)
        rw [List.countP_cons, h0]
        simp
      · have hlt := ih k2 c ht hct
        rw [List.countP_cons]
        by_cases hx : c.1 < x.1 <;> simp [hx] <;> omega

theorem sorted_take_drop_le {α : Type} [LinearOrder α] (s : List (Cell α)) (k : ℕ)
    (hs : s.Pairwise fun a b => b.1 ≤ a.1) :
    ∀ x ∈ s.take k, ∀ y ∈ s.drop k, y.1 ≤ x.1 := by
  intro x hx y hy
  have h2 : (s.take k ++ s.drop k).Pairwise fun a b => b.1 ≤ a.1 := by
    rw [List.take_append_drop]
    exact hs
  exact (List.pairwise_append.mp h2).2.2 x hx y hy

/-! ### Binning lemmas -/

theorem upsert_entries_prop {κ ν : Type} [DecidableEq κ] (Q : κ → ν → Prop) (f : ν → ν)
    (i : ν) (k : κ) (l : List (κ × ν)) (hl : ∀ e ∈ l, Q e.1 e.2)
    (hf : ∀ v, Q k v → Q k (f v)) (hi : Q k i) :
    ∀ e ∈ upsert f i k l, Q e.1 e.2 := by
  induction l with
  | nil =>
    intro e he
    rw [upsert] at he
    rcases List.mem_singleton.mp he with rfl
    exact hi
  | cons hd t ih =>
    intro e he
    obtain ⟨k1, v⟩ := hd
    rw [upsert] at he
    by_cases hk : k1 = k
    · subst hk
      rw [if_pos rfl] at he
      rcases List.mem_cons.mp he with rfl | het
      · exact hf v (hl (k1, v) (List.mem_cons_self _ _))
      · exact hl e (List.mem_cons_of_mem _ het)
    · rw [if_neg hk] at he
      rcases List.mem_cons.mp he with rfl | het
      · exact hl (k1, v) (List.mem_cons_self _ _)
      · exact ih (fun e2 he2 => hl e2 (List.mem_cons_of_mem _ he2)) e het

theorem binsOf_entries {α : Type} (P : Cell α → Prop) (mags : List (List α))
    (temporal_band spectral_band : ℕ) (hP : ∀ c ∈ cellsOf mags, P c) :
    ∀ e ∈ binsOf mags temporal_band spectral_band,
      (∀ c ∈ e.2, binKey temporal_band spectral_band c = e.1 ∧ P c) ∧ e.2 ≠ [] := by
  rw [binsOf]
  suffices hgen : ∀ (cells : List (Cell α)), (∀ c ∈ cells, P c) →
      ∀ (acc : List ((ℕ × ℕ) × List (Cell α))),
      (∀ e ∈ acc, (∀ c ∈ e.2, binKey temporal_band spectral_band c = e.1 ∧ P c) ∧ e.2 ≠ []) →
      ∀ e ∈ cells.foldl
        (fun bs c => upsert (fun cs => cs ++ [c]) [c] (binKey temporal_band spectral_band c) bs)
        acc,
        (∀ c ∈ e.2, binKey temporal_band spectral_band c = e.1 ∧ P c) ∧ e.2 ≠ [] by
    exact hgen (cellsOf mags) hP [] (by simp)
  intro cells
  induction cells with
  | nil =>
    intro _ acc hacc e he
    exact hacc e he
  | cons c t ih =>
    intro hc acc hacc e he
    rw [List.foldl_cons] at he
    refine ih (fun x hx => hc x (List.mem_cons_of_mem _ hx)) _ ?_ e he
    intro e2 he2
    refine upsert_entries_prop
      (fun key v => (∀ c2 ∈ v, binKey temporal_band spectral_band c2 = key ∧ P c2) ∧ v ≠ [])
      _ _ _ _ hacc ?_ ?_ e2 he2
    · rintro v ⟨hv, _⟩
      refine ⟨?_, by simp⟩
      intro c2 hc2
      rcases List.mem_append.mp hc2 with h1 | h1
      · exact hv c2 h1
      · rcases List.mem_singleton.mp h1 with rfl
        exact ⟨rfl, hc _ (List.mem_cons_self _ _)⟩
    · refine ⟨?_, by simp⟩
      intro c2 hc2
      rcases List.mem_singleton.mp hc2 with rfl
      exact ⟨rfl, hc _ (List.mem_cons_self _ _)⟩

theorem binsOf_keys_nodup {α : Type} (mags : List (List α)) (temporal_band spectral_band : ℕ) :
    (keysOf (binsOf mags temporal_band spectral_band)).Nodup := by
  rw [binsOf]
  suffices hgen : ∀ (cells : List (Cell α)) (acc : List ((ℕ × ℕ) × List (Cell α))),
      (keysOf acc).Nodup →
      (keysOf (cells.foldl
        (fun bs c => upsert (fun cs => cs ++ [c]) [c] (binKey temporal_band spectral_band c) bs)
        acc)).Nodup by
    exact hgen (cellsOf mags) [] (by simp [keysOf])
  intro cells
  induction cells with
  | nil =>
    intro acc hacc
    exact hacc
  | cons c t ih =>
    intro acc hacc
    rw [List.foldl_cons]
    exact ih _ (keysOf_upsert_nodup _ _ _ _ hacc)

theorem upsert_append_flat_perm {κ α : Type} [DecidableEq κ] (c : α) (k : κ)
    (bs : List (κ × List α)) :
    List.Perm ((upsert (fun cs => cs ++ [c]) [c] k bs).flatMap fun e => e.2)
      ((bs.flatMap fun e => e.2) ++ [c]) := by
  induction bs with
  | nil => simp [upsert]
  | cons hd t ih =>
    obtain ⟨k1, v⟩ := hd
    rw [upsert]
    by_cases hk : k1 = k
    · rw [if_pos hk]
      simp only [List.flatMap_cons, List.append_assoc]
      exact List.Perm.append_left v (List.perm_append_comm)
    · rw [if_neg hk]
      simp only [List.flatMap_cons, List.append_assoc]
      exact List.Perm.append_left v (ih.trans (List.Perm.refl _))

theorem binsOf_flat_perm {α : Type} (mags : List (List α)) (temporal_band spectral_band : ℕ) :
    List.Perm ((binsOf mags temporal_band spectral_band).flatMap fun e => e.2)
      (cellsOf mags) := by
  rw [binsOf]
  suffices hgen : ∀ (cells : List (Cell α)) (acc : List ((ℕ × ℕ) × List (Cell α))),
      List.Perm ((cells.foldl
        (fun bs c => upsert (fun cs => cs ++ [c]) [c] (binKey temporal_band spectral_band c) bs)
        acc).flatMap fun e => e.2)
        ((acc.flatMap fun e => e.2) ++ cells) by
    simpa using hgen (cellsOf mags) []
  intro cells
  induction cells with
  | nil =>
    intro acc
    simp
  | cons c t ih =>
    intro acc
    rw [List.foldl_cons]
    refine (ih _).trans ?_
    refine ((upsert_append_flat_perm c _ acc).append_right t).trans ?_
    rw [List.append_assoc]
    exact List.Perm.refl _

theorem cellsOf_window_lt {α : Type} (mags : List (List α)) :
    ∀ c ∈ cellsOf mags, c.2.1 < mags.length := by
  intro c hc
  rw [cellsOf] at hc
  obtain ⟨wrow, hw, hcw⟩ := List.mem_flatMap.mp hc
  obtain ⟨fv, _, rfl⟩ := List.mem_map.mp hcw
  exact List.fst_lt_of_mem_enum hw

/-! ### Peak-map accumulation lemmas -/

theorem peaksLookup_pmAppend (pm : PeakMap) (fr w f : ℕ) :
    peaksLookup (pmAppend pm fr w) f =
      peaksLookup pm f ++ if fr = f then [w] else [] := by
  by_cases hf : fr = f
  · subst hf
    rw [peaksLookup, pmAppend, alookup_upsert_self]
    cases halo : alookup fr pm <;> simp [peaksLookup, halo]
  · rw [peaksLookup, pmAppend, alookup_upsert_ne _ _ fr f pm (fun h => hf h.symm)]
    simp [peaksLookup, hf]

theorem peaksLookup_cellsFold {α : Type} (sel : List (Cell α)) (f : ℕ) : ∀ pm : PeakMap,
    peaksLookup (sel.foldl (fun pm2 c => pmAppend pm2 c.2.2 c.2.1) pm) f =
      peaksLookup pm f ++ ((sel.filter fun c => decide (c.2.2 = f)).map fun c => c.2.1) := by
  induction sel with
  | nil =>
    intro pm
    simp
  | cons c t ih =>
    intro pm
    rw [List.foldl_cons, ih, peaksLookup_pmAppend]
    by_cases hf : c.2.2 = f
    · simp [List.filter_cons, hf, List.append_assoc]
    · simp [List.filter_cons, hf]

theorem peaksLookup_from_magnitudes {α : Type} [LinearOrder α] (mags : List (List α))
    (spectral_band temporal_band peaks_per_bin f : ℕ) :
    peaksLookup (to_peaks_from_magnitudes mags spectral_band temporal_band peaks_per_bin) f =
      ((binsOf mags temporal_band spectral_band).map fun e =>
        ((nlargest peaks_per_bin e.2).filter fun c => decide (c.2.2 = f)).map
          fun c => c.2.1).flatten := by
  rw [to_peaks_from_magnitudes]
  suffices hgen : ∀ (buckets : List ((ℕ × ℕ) × List (Cell α))) (pm : PeakMap),
      peaksLookup (buckets.foldl (fun pm bucket => (nlargest peaks_per_bin bucket.2).foldl
        (fun pm2 c => pmAppend pm2 c.2.2 c.2.1) pm) pm) f =
      peaksLookup pm f ++ (buckets.map fun e =>
        ((nlargest peaks_per_bin e.2).filter fun c => decide (c.2.2 = f)).map
          fun c => c.2.1).flatten by
    simpa [peaksLookup, alookup] using hgen (binsOf mags temporal_band spectral_band) []
  intro buckets
  induction buckets with
  | nil =>
    intro pm
    simp
  | cons b t ih =>
    intro pm
    rw [List.foldl_cons, ih, peaksLookup_cellsFold, List.map_cons, List.flatten_cons,
      List.append_assoc]

theorem sum_map_ite_const {β : Type} (l : List β) (P : β → Bool) (k : ℕ) :
    (l.map fun b => if P b then k else 0).sum = k * l.countP P := by
  induction l with
  | nil => simp
  | cons b t ih =>
    rw [List.map_cons, List.sum_cons, ih, List.countP_cons]
    by_cases hb : P b
    · simp only [hb, if_true]
      ring
    · simp [hb]

theorem countP_key_bound (ks : List (ℕ × ℕ)) (s B : ℕ) (hnd : ks.Nodup)
    (hb : ∀ p ∈ ks, p.2 = s → p.1 < B) :
    ks.countP (fun p => decide (p.2 = s)) ≤ B := by
  rw [List.countP_eq_length_filter]
  have hflnd : (ks.filter fun p => decide (p.2 = s)).Nodup := hnd.filter _
  have hinj : ∀ x ∈ ks.filter fun p => decide (p.2 = s),
      ∀ y ∈ ks.filter fun p => decide (p.2 = s), x.1 = y.1 → x = y := by
    intro x hx y hy hxy
    have hx2 : x.2 = s := by simpa using List.of_mem_filter hx
    have hy2 : y.2 = s := by simpa using List.of_mem_filter hy
    exact Prod.ext hxy (hx2.trans hy2.symm)
  have hmnd : ((ks.filter fun p => decide (p.2 = s)).map Prod.fst).Nodup :=
    List.Nodup.map_on hinj hflnd
  have hsub : ((ks.filter fun p => decide (p.2 = s)).map Prod.fst).toFinset ⊆
      Finset.range B := by
    intro a ha
    rw [List.mem_toFinset] at ha
    obtain ⟨p, hp, rfl⟩ := List.mem_map.mp ha
    exact Finset.mem_range.mpr
      (hb p (List.mem_of_mem_filter hp) (by simpa using List.of_mem_filter hp))
  have hcard := Finset.card_le_card hsub
  rw [Finset.card_range, List.toFinset_card_of_nodup hmnd, List.length_map] at hcard
  exact hcard

/-! ### Peak-selector claim theorems -/

/-- Claim C4.  The peak selector (i) partitions the cells of the magnitude
matrix into buckets keyed exactly by
`(frame_index / temporal_band, frequency_index / spectral_band)` -- the
concatenation of all buckets is a permutation of the cell list and every cell
sits in the bucket of its own bin key; (ii) within each bucket it selects the
`peaks_per_bin` cells of largest magnitude: the selection is the prefix of a
permutation of the bucket sorted by descending magnitude, has size
`min peaks_per_bin bucket_size`, and dominates every unselected cell; and
(iii) the output map lists, under each frequency index, exactly the frame
indices of the selected cells of that frequency, in selection order, with the
bin key (including the temporal block) discarded. -/
theorem C4_peak_selector {α : Type} [LinearOrder α] (mags : List (List α))
    (temporal_band spectral_band peaks_per_bin : ℕ)
    (htb : 0 < temporal_band) (hsb : 0 < spectral_band) :
    (List.Perm ((binsOf mags temporal_band spectral_band).flatMap fun e => e.2)
        (cellsOf mags) ∧
      ∀ e ∈ binsOf mags temporal_band spectral_band, ∀ c ∈ e.2,
        (c.2.1 / temporal_band, c.2.2 / spectral_band) = e.1) ∧
    (∀ e ∈ binsOf mags temporal_band spectral_band,
      List.Perm (sortDesc e.2) e.2 ∧
      (nlargest peaks_per_bin e.2).length = min peaks_per_bin e.2.length ∧
      ∀ x ∈ nlargest peaks_per_bin e.2, ∀ y ∈ (sortDesc e.2).drop peaks_per_bin, y.1 ≤ x.1) ∧
    (∀ f : ℕ,
      peaksLookup (to_peaks_from_magnitudes mags spectral_band temporal_band peaks_per_bin) f =
      ((binsOf mags temporal_band spectral_band).map fun e =>
        ((nlargest peaks_per_bin e.2).filter fun c => decide (c.2.2 = f)).map
          fun c => c.2.1).flatten) := by
  refine ⟨⟨binsOf_flat_perm mags temporal_band spectral_band, ?_⟩, ?_, fun f =>
    peaksLookup_from_magnitudes mags spectral_band temporal_band peaks_per_bin f⟩
  · intro e he c hc
    exact ((binsOf_entries (fun _ => True) mags temporal_band spectral_band
      (fun _ _ => trivial) e he).1 c hc).1
  · intro e he
    refine ⟨sortDesc_perm e.2, ?_, sorted_take_drop_le _ _ (sortDesc_pairwise e.2)⟩
    rw [nlargest, List.length_take, (sortDesc_perm e.2).length_eq]

/-- Witness for C4 at the 2-by-3 rational magnitude matrix
`[[1,5,2],[7,3,4]]` with `temporal_band = 1`, `spectral_band = 2`,
`peaks_per_bin = 1`, instantiating part (iii) at frequency index 2. -/
theorem C4_peak_selector_witness :
    ((0 < 1 ∧ 0 < 2) ∧
      peaksLookup (to_peaks_from_magnitudes ([[1, 5, 2], [7, 3, 4]] : List (List ℚ)) 2 1 1) 2 =
      ((binsOf ([[1, 5, 2], [7, 3, 4]] : List (List ℚ)) 1 2).map fun e =>
        ((nlargest 1 e.2).filter fun c => decide (c.2.2 = 2)).map fun c => c.2.1).flatten) :=
  ⟨⟨Nat.one_pos, Nat.zero_lt_two⟩,
    (C4_peak_selector ([[1, 5, 2], [7, 3, 4]] : List (List ℚ)) 1 2 1 Nat.one_pos
      Nat.zero_lt_two).2.2 2⟩

/-- Claim C5.  Peak-map invariants: (a) no frequency index is mapped to more
than `ceil(num_windows / temporal_band) * peaks_per_bin` frame indices;
(b) no single bin contributes more than `peaks_per_bin` entries; (c) every
selected cell is at least as large as the `peaks_per_bin`-th largest
magnitude of its bin, stated as: fewer than `peaks_per_bin` cells of its bin
strictly exceed it. -/
theorem C5_peak_invariants {α : Type} [LinearOrder α] (mags : List (List α))
    (temporal_band spectral_band peaks_per_bin : ℕ)
    (htb : 0 < temporal_band) (hsb : 0 < spectral_band) :
    (∀ f : ℕ,
      (peaksLookup (to_peaks_from_magnitudes mags spectral_band temporal_band peaks_per_bin)
        f).length ≤
      (mags.length + temporal_band - 1) / temporal_band * peaks_per_bin) ∧
    (∀ e ∈ binsOf mags temporal_band spectral_band,
      (nlargest peaks_per_bin e.2).length ≤ peaks_per_bin) ∧
    (∀ e ∈ binsOf mags temporal_band spectral_band, ∀ c ∈ nlargest peaks_per_bin e.2,
      e.2.countP (fun y => decide (c.1 < y.1)) < peaks_per_bin) := by
  have hbins := binsOf_entries (fun c => c.2.1 < mags.length) mags temporal_band spectral_band
    (cellsOf_window_lt mags)
  refine ⟨?_, ?_, ?_⟩
  · intro f
    rw [peaksLookup_from_magnitudes, List.length_flatten, List.map_map]
    have hptwise : ∀ e ∈ binsOf mags temporal_band spectral_band,
        (List.length ∘ fun e => ((nlargest peaks_per_bin e.2).filter
          fun c => decide (c.2.2 = f)).map fun c => c.2.1) e ≤
        (fun e => if (fun e2 : (ℕ × ℕ) × List (Cell α) =>
          decide (e2.1.2 = f / spectral_band)) e then peaks_per_bin else 0) e := by
      intro e he
      by_cases hkey : e.1.2 = f / spectral_band
      · have hlen : ((nlargest peaks_per_bin e.2).filter
            fun c => decide (c.2.2 = f)).length ≤ peaks_per_bin :=
          calc ((nlargest peaks_per_bin e.2).filter fun c => decide (c.2.2 = f)).length
              ≤ (nlargest peaks_per_bin e.2).length := List.length_filter_le _ _
            _ ≤ peaks_per_bin := by
                rw [nlargest]
                simpa using List.length_take_le peaks_per_bin (sortDesc e.2)
        simpa [hkey] using hlen
      · have hempty : ((nlargest peaks_per_bin e.2).filter
            fun c => decide (c.2.2 = f)) = [] := by
          rw [List.filter_eq_nil_iff]
          intro c hc
          simp only [decide_eq_true_eq]
          intro hcf
          have hcmem : c ∈ e.2 :=
            (sortDesc_perm e.2).mem_iff.mp (List.mem_of_mem_take hc)
          have hkeyc := ((hbins e he).1 c hcmem).1
          rw [binKey] at hkeyc
          apply hkey
          rw [← hkeyc, hcf]
        simp [hkey, hempty]
    calc ((binsOf mags temporal_band spectral_band).map (List.length ∘ fun e =>
          ((nlargest peaks_per_bin e.2).filter fun c => decide (c.2.2 = f)).map
            fun c => c.2.1)).sum
        ≤ ((binsOf mags temporal_band spectral_band).map fun e =>
            if decide (e.1.2 = f / spectral_band) then peaks_per_bin else 0).sum :=
          List.sum_le_sum hptwise
      _ = peaks_per_bin * ((binsOf mags temporal_band spectral_band).countP
            fun e => decide (e.1.2 = f / spectral_band)) :=
          sum_map_ite_const _ _ _
      _ ≤ peaks_per_bin * ((mags.length + temporal_band - 1) / temporal_band) := by
          refine Nat.mul_le_mul_left peaks_per_bin ?_
          have hcp : ((binsOf mags temporal_band spectral_band).countP
              fun e => decide (e.1.2 = f / spectral_band)) =
              ((keysOf (binsOf mags temporal_band spectral_band)).countP
                fun p => decide (p.2 = f / spectral_band)) := by
            rw [keysOf, List.countP_map]
            rfl
          rw [hcp]
          refine countP_key_bound _ _ _ (binsOf_keys_nodup mags temporal_band spectral_band) ?_
          intro p hp hps
          have hp2 : ∃ v, (p, v) ∈ binsOf mags temporal_band spectral_band := by
            simpa [keysOf] using hp
          obtain ⟨v, hv⟩ := hp2
          obtain ⟨hcells, hne⟩ := hbins (p, v) hv
          obtain ⟨c0, hc0⟩ := List.exists_mem_of_ne_nil v hne
          obtain ⟨hkey0, hwin0⟩ := hcells c0 hc0
          have hkey1 : binKey temporal_band spectral_band c0 = p := hkey0
          have hfst : p.1 = c0.2.1 / temporal_band := by
            rw [← hkey1, binKey]
          rw [hfst]
          have h1 : c0.2.1 / temporal_band ≤ (mags.length - 1) / temporal_band :=
            Nat.div_le_div_right (by omega)
          have h3 : (mags.length - 1) / temporal_band + 1 =
              (mags.length - 1 + temporal_band) / temporal_band :=
            (Nat.add_div_right _ htb).symm
          have h4 : (mags.length - 1 + temporal_band) / temporal_band ≤
              (mags.length + temporal_band - 1) / temporal_band :=
            Nat.div_le_div_right (by omega)
          omega
      _ = (mags.length + temporal_band - 1) / temporal_band * peaks_per_bin :=
          Nat.mul_comm _ _
  · intro e he
    rw [nlargest]
    simpa using List.length_take_le peaks_per_bin (sortDesc e.2)
  · intro e he c hc
    have := countP_gt_lt_of_mem_take (sortDesc e.2) peaks_per_bin c
      (sortDesc_pairwise e.2) (by rw [nlargest] at hc; exact hc)
    rwa [((sortDesc_perm e.2).countP_eq _)] at this

/-- Witness for C5 at the same rational matrix, instantiating part (a) at
frequency 0: at most `ceil(2/1) * 1 = 2` entries. -/
theorem C5_peak_invariants_witness :
    ((0 < 1 ∧ 0 < 2) ∧
      (peaksLookup (to_peaks_from_magnitudes ([[1, 5, 2], [7, 3, 4]] : List (List ℚ)) 2 1 1)
        0).length ≤
      (([[1, 5, 2], [7, 3, 4]] : List (List ℚ)).length + 1 - 1) / 1 * 1) :=
  ⟨⟨Nat.one_pos, Nat.zero_lt_two⟩,
    (C5_peak_invariants ([[1, 5, 2], [7, 3, 4]] : List (List ℚ)) 1 2 1 Nat.one_pos
      Nat.zero_lt_two).1 0⟩

/-! ### Rounding lemmas -/

theorem roundHalfEven_nonneg (x : ℝ) (hx : 0 ≤ x) : 0 ≤ roundHalfEven x := by
  rw [roundHalfEven]
  have hf : (0 : ℤ) ≤ ⌊x⌋ := Int.floor_nonneg.mpr hx
  split_ifs <;> omega

theorem npRound2_nonneg (x : ℝ) (hx : 0 ≤ x) : 0 ≤ npRound2 x := by
  rw [npRound2]
  have h := roundHalfEven_nonneg (x * 100) (by positivity)
  exact div_nonneg (by exact_mod_cast h) (by norm_num)

theorem roundHalfEven_zero : roundHalfEven 0 = 0 := by
  rw [roundHalfEven]
  norm_num [Int.fract_zero]

theorem npRound2_zero : npRound2 0 = 0 := by
  rw [npRound2]
  norm_num [roundHalfEven_zero]

/-! ### Spectral analyzer lemmas -/

theorem fourier_magnitudes_ok (s : List ℝ) (hne : s.length ≠ 0) :
    fourier_magnitudes s =
      .ok ((List.range (s.length / 2)).map fun k => npRound2 (Complex.abs (dft s k))) := by
  rw [fourier_magnitudes, if_neg hne]
  dsimp only
  congr 1
  rw [List.map_map, List.length_map, List.length_range, ← List.map_take, List.take_range,
    min_eq_left (Nat.div_le_self _ _), List.map_map]
  rfl

/-- Claim C6.  On a frame of exactly `window_size` samples the spectral
analyzer succeeds, returns exactly `window_size / 2` values, and value `k` is
the absolute value of Fourier coefficient `k` rounded to two decimal places;
every returned value is non-negative. -/
theorem C6_spectral_contract (s : List ℝ) (window_size : ℕ)
    (hw : s.length = window_size) (h0 : 0 < window_size) :
    exceptIsOk (fourier_magnitudes s) = true ∧
    ((fourier_magnitudes s).toOption.getD []).length = window_size / 2 ∧
    ∀ k, k < window_size / 2 →
      ((fourier_magnitudes s).toOption.getD []).getD k 0 =
        npRound2 (Complex.abs (dft s k)) ∧
      0 ≤ ((fourier_magnitudes s).toOption.getD []).getD k 0 := by
  have hne : s.length ≠ 0 := by omega
  have hout : (fourier_magnitudes s).toOption.getD [] =
      (List.range (window_size / 2)).map fun k => npRound2 (Complex.abs (dft s k)) := by
    rw [fourier_magnitudes_ok s hne, hw]
    rfl
  refine ⟨by rw [fourier_magnitudes_ok s hne]; rfl, by rw [hout]; simp, ?_⟩
  intro k hk
  rw [hout]
  have hlen : k < ((List.range (window_size / 2)).map fun k2 =>
      npRound2 (Complex.abs (dft s k2))).length := by
    simpa using hk
  constructor
  · rw [List.getD_eq_getElem _ _ hlen]
    simp
  · rw [List.getD_eq_getElem _ _ hlen]
    simp only [List.getElem_map, List.getElem_range]
    exact npRound2_nonneg _ (Complex.abs.nonneg _)

/-- Witness for C6 at the two-sample zero frame. -/
theorem C6_spectral_contract_witness :
    (([(0 : ℝ), 0]).length = 2 ∧ 0 < 2) ∧
    (exceptIsOk (fourier_magnitudes [(0 : ℝ), 0]) = true ∧
      ((fourier_magnitudes [(0 : ℝ), 0]).toOption.getD []).length = 2 / 2 ∧
      (((fourier_magnitudes [(0 : ℝ), 0]).toOption.getD []).getD 0 0 =
          npRound2 (Complex.abs (dft [(0 : ℝ), 0] 0)) ∧
        0 ≤ ((fourier_magnitudes [(0 : ℝ), 0]).toOption.getD []).getD 0 0)) :=
  ⟨⟨rfl, by norm_num⟩,
    (C6_spectral_contract [(0 : ℝ), 0] 2 rfl (by norm_num)).1,
    (C6_spectral_contract [(0 : ℝ), 0] 2 rfl (by norm_num)).2.1,
    (C6_spectral_contract [(0 : ℝ), 0] 2 rfl (by norm_num)).2.2 0 (by norm_num)⟩

/-- Claim C7, amended.  The spectral analyzer performs no validation of the
frame length against `window_size`: on every non-empty frame, of any length
`L`, it succeeds and returns `L / 2` magnitudes; its only failure is the
unguarded error `np.fft.fft` raises on an empty input.  There is no
`MalformedFrame` condition in the code. -/
theorem C7_no_length_check (s : List ℝ) :
    (s ≠ [] → exceptIsOk (fourier_magnitudes s) = true ∧
      ((fourier_magnitudes s).toOption.getD []).length = s.length / 2) ∧
    (s = [] → fourier_magnitudes s = .error .invalidFFTLength) := by
  constructor
  · intro hne
    have hlen : s.length ≠ 0 := fun h => hne (List.length_eq_zero.mp h)
    have hout2 : (fourier_magnitudes s).toOption.getD [] =
        (List.range (s.length / 2)).map fun k => npRound2 (Complex.abs (dft s k)) := by
      rw [fourier_magnitudes_ok s hlen]
      rfl
    refine ⟨by rw [fourier_magnitudes_ok s hlen]; rfl, ?_⟩
    rw [hout2]
    simp
  · intro he
    subst he
    rfl

/-- Witness for the amended C7: a three-sample frame succeeds with one
magnitude; the empty frame fails. -/
theorem C7_no_length_check_witness :
    (exceptIsOk (fourier_magnitudes [(0 : ℝ), 0, 0]) = true ∧
      ((fourier_magnitudes [(0 : ℝ), 0, 0]).toOption.getD []).length =
        ([(0 : ℝ), 0, 0]).length / 2) ∧
    fourier_magnitudes ([] : List ℝ) = .error .invalidFFTLength :=
  ⟨(C7_no_length_check [(0 : ℝ), 0, 0]).1 (List.cons_ne_nil _ _),
    (C7_no_length_check ([] : List ℝ)).2 rfl⟩

theorem dft_zero_three (k : ℕ) : dft [(0 : ℝ), 0, 0] k = 0 := by
  rw [dft]
  norm_num [List.range_succ]

/-- Counterexample to C7 as stated: the analyzer has no `window_size`
parameter and performs no length check.  On a frame of length 3 -- which
differs from the default `window_size` of 1024 (and from every even window
size) -- it does not fail: it returns the single magnitude `[0]`. -/
theorem C7_counterexample :
    (([(0 : ℝ), 0, 0]).length ≠ 1024) ∧
    fourier_magnitudes [(0 : ℝ), 0, 0] = .ok [0] := by
  refine ⟨by norm_num, ?_⟩
  rw [fourier_magnitudes_ok _ (by norm_num)]
  norm_num [List.range_succ, dft_zero_three, npRound2_zero]

/-! ### Autocorrelation counting lemmas (claim C9)

The delay histogram of a peak map matched against itself counts, per offset
`d`, the lag-`d` autocorrelation of the frame-index multiset of each shared
frequency; the lag-0 value dominates every other lag. -/

theorem count_flatMap {γ : Type} (l : List γ) (g : γ → List ℤ) (d : ℤ) :
    (l.flatMap g).count d = (l.map fun x => (g x).count d).sum := by
  induction l with
  | nil => simp
  | cons a t ih => simp [List.flatMap_cons, List.count_append, ih]

theorem flatMap_congr_mem {γ δ : Type} (l : List γ) (f g : γ → List δ)
    (h : ∀ e ∈ l, f e = g e) : l.flatMap f = l.flatMap g := by
  induction l with
  | nil => rfl
  | cons a t ih =>
    rw [List.flatMap_cons, List.flatMap_cons, h a (List.mem_cons_self a t),
      ih fun e he => h e (List.mem_cons_of_mem _ he)]

theorem flatMap_of_map {γ δ ε : Type} (l : List γ) (f : γ → δ) (g : δ → List ε) :
    (l.map f).flatMap g = l.flatMap fun a => g (f a) := by
  induction l with
  | nil => rfl
  | cons a t ih => simp only [List.map_cons, List.flatMap_cons, ih]

theorem two_mul_mul_le (a b : ℕ) : 2 * (a * b) ≤ a * a + b * b := by
  zify
  nlinarith [sq_nonneg ((a : ℤ) - b)]

theorem selfDiffs_count_le (l : List ℤ) (d : ℤ) :
    (selfDiffs l).count d ≤ (selfDiffs l).count 0 := by
  have hterm : ∀ e : ℤ, ∀ a : ℤ, (l.map fun b => a - b).count e = l.count (a - e) := by
    intro e a
    have hinj : Function.Injective fun b : ℤ => a - b := fun x y h => by
      dsimp at h
      omega
    have h2 := List.count_map_of_injective l (fun b : ℤ => a - b) hinj (a - e)
    simpa using h2
  have hsum : ∀ e : ℤ,
      (selfDiffs l).count e = ∑ x ∈ l.toFinset, l.count x * l.count (x - e) := by
    intro e
    rw [selfDiffs, count_flatMap]
    have hmc : (l.map fun a => (l.map fun b => a - b).count e) =
        l.map fun a => l.count (a - e) :=
      List.map_congr_left fun a _ => hterm e a
    rw [hmc, Finset.sum_list_map_count]
    refine Finset.sum_congr rfl fun x _ => ?_
    simp
  rw [hsum d, hsum 0]
  have hrhs : ∑ x ∈ l.toFinset, l.count x * l.count (x - 0) =
      ∑ x ∈ l.toFinset, l.count x * l.count x :=
    Finset.sum_congr rfl fun x _ => by rw [sub_zero]
  rw [hrhs]
  have hshift : ∑ x ∈ l.toFinset, l.count (x - d) * l.count (x - d) ≤
      ∑ x ∈ l.toFinset, l.count x * l.count x := by
    have himg : ∑ y ∈ l.toFinset.image (fun x => x - d), l.count y * l.count y =
        ∑ x ∈ l.toFinset, l.count (x - d) * l.count (x - d) := by
      refine Finset.sum_image ?_
      intro x _ y _ h
      omega
    rw [← himg]
    calc ∑ y ∈ l.toFinset.image (fun x => x - d), l.count y * l.count y
        ≤ ∑ y ∈ l.toFinset.image (fun x => x - d) ∪ l.toFinset,
            l.count y * l.count y :=
          Finset.sum_le_sum_of_subset Finset.subset_union_left
      _ = ∑ y ∈ l.toFinset, l.count y * l.count y := by
          refine (Finset.sum_subset Finset.subset_union_right ?_).symm
          intro y _ hy
          rw [List.count_eq_zero.mpr fun h => hy (List.mem_toFinset.mpr h)]
          rfl
  have hmain : 2 * ∑ x ∈ l.toFinset, l.count x * l.count (x - d) ≤
      2 * ∑ x ∈ l.toFinset, l.count x * l.count x := by
    calc 2 * ∑ x ∈ l.toFinset, l.count x * l.count (x - d)
        = ∑ x ∈ l.toFinset, 2 * (l.count x * l.count (x - d)) := by
          rw [Finset.mul_sum]
      _ ≤ ∑ x ∈ l.toFinset,
            (l.count x * l.count x + l.count (x - d) * l.count (x - d)) :=
          Finset.sum_le_sum fun x _ => two_mul_mul_le _ _
      _ = ∑ x ∈ l.toFinset, l.count x * l.count x +
            ∑ x ∈ l.toFinset, l.count (x - d) * l.count (x - d) :=
          Finset.sum_add_distrib
      _ ≤ ∑ x ∈ l.toFinset, l.count x * l.count x +
            ∑ x ∈ l.toFinset, l.count x * l.count x :=
          Nat.add_le_add_left hshift _
      _ = 2 * ∑ x ∈ l.toFinset, l.count x * l.count x := (two_mul _).symm
  omega

theorem crossPairs_self (P : PeakMap) (hnd : (keysOf P).Nodup) :
    crossPairs P P = P.flatMap fun e => e.2.flatMap fun a => e.2.map fun b => (a, b) := by
  rw [crossPairs]
  refine flatMap_congr_mem _ _ _ ?_
  intro e he
  have halo : alookup e.1 P = some e.2 := alookup_of_mem_of_nodupKeys e.1 e.2 P he hnd
  rw [halo]

theorem delayDiffs_self (P : PeakMap) (hnd : (keysOf P).Nodup) :
    delayDiffs P P = P.flatMap fun e => selfDiffs (e.2.map fun n : ℕ => (n : ℤ)) := by
  rw [delayDiffs, crossPairs_self P hnd, List.map_flatMap]
  refine flatMap_congr_mem _ _ _ ?_
  intro e _
  rw [selfDiffs, List.map_flatMap, flatMap_of_map]
  refine flatMap_congr_mem _ _ _ ?_
  intro a _
  rw [List.map_map, List.map_map]
  rfl

theorem delayDiffs_self_count_le_zero (P : PeakMap) (hnd : (keysOf P).Nodup) (d : ℤ) :
    (delayDiffs P P).count d ≤ (delayDiffs P P).count 0 := by
  rw [delayDiffs_self P hnd, count_flatMap, count_flatMap]
  refine List.sum_le_sum ?_
  intro e _
  exact selfDiffs_count_le _ d

theorem delayDiffs_self_cons (f0 w0 : ℕ) (t : List ℕ) (rest : PeakMap) :
    delayDiffs ((f0, w0 :: t) :: rest) ((f0, w0 :: t) :: rest) =
      (0 : ℤ) :: ((((t.map fun b => (w0, b)) ++
          (t.flatMap fun a => (w0 :: t).map fun b => (a, b))) ++
          (rest.flatMap fun e =>
            (match alookup e.1 ((f0, w0 :: t) :: rest) with
            | some lb => e.2.flatMap fun a => lb.map fun b => (a, b)
            | none => [] : List (ℕ × ℕ)))).map
          fun ab : ℕ × ℕ => ((ab.1 : ℤ) - (ab.2 : ℤ))) := by
  rw [delayDiffs, crossPairs, List.flatMap_cons]
  rw [show alookup (f0, w0 :: t).1 ((f0, w0 :: t) :: rest) = some (w0 :: t) from by
    simp [alookup]]
  show ((((w0 :: t).flatMap fun a => (w0 :: t).map fun b => (a, b)) ++
      rest.flatMap fun e =>
        match alookup e.1 ((f0, w0 :: t) :: rest) with
        | some lb => e.2.flatMap fun a => lb.map fun b => (a, b)
        | none => []).map fun ab => (ab.1 : ℤ) - (ab.2 : ℤ)) = _
  rw [List.flatMap_cons, List.map_cons, List.cons_append, List.cons_append, List.map_cons,
    sub_self]

/-- On identical peak maps with distinct keys and non-empty frame lists, the
delay estimator either fails on an empty map or returns offset `0`: the first
difference inserted into the histogram is `0`, and by the autocorrelation
bound its count is maximal, so Python `max` with its first-encountered-max
tie-break returns key `0`. -/
theorem synchronize_core_self (P : PeakMap) (hnd : (keysOf P).Nodup)
    (hvals : ∀ e ∈ P, e.2 ≠ []) :
    synchronize_core P P = .error .noCommonLandmarks ∨ synchronize_core P P = .ok 0 := by
  rcases P with _ | ⟨⟨f0, L0⟩, rest⟩
  · left
    rfl
  · rcases L0 with _ | ⟨w0, t⟩
    · exact absurd rfl (hvals (f0, []) (List.mem_cons_self _ _))
    · right
      obtain ⟨ds, hds⟩ : ∃ ds : List ℤ,
          delayDiffs ((f0, w0 :: t) :: rest) ((f0, w0 :: t) :: rest) = 0 :: ds :=
        ⟨_, delayDiffs_self_cons f0 w0 t rest⟩
      have hcore : synchronize_core ((f0, w0 :: t) :: rest) ((f0, w0 :: t) :: rest) =
          dictMax (buildHist (delayDiffs ((f0, w0 :: t) :: rest) ((f0, w0 :: t) :: rest))) :=
        rfl
      rw [hcore, hds]
      have hcnt : ∀ d : ℤ, ((0 : ℤ) :: ds).count d ≤ ((0 : ℤ) :: ds).count 0 := by
        intro d
        have hfull := delayDiffs_self_count_le_zero ((f0, w0 :: t) :: rest) hnd d
        rw [hds] at hfull
        exact hfull
      cases hh : buildHist ((0 : ℤ) :: ds) with
      | nil => exact absurd hh (buildHist_ne_nil _ (List.cons_ne_nil _ _))
      | cons he0 ht0 =>
        have hhead : he0.1 = 0 := by
          have := buildHist_headKey 0 ds
          rw [hh] at this
          simpa using this
        have hv0 : he0.2 = ((0 : ℤ) :: ds).count he0.1 := by
          refine buildHist_mem_count _ _ _ ?_
          have : he0 ∈ buildHist ((0 : ℤ) :: ds) := by
            rw [hh]
            exact List.mem_cons_self _ _
          exact this
        have hmax : ∀ kv ∈ ht0, kv.2 ≤ he0.2 := by
          intro kv hkv
          have hkvmem : kv ∈ buildHist ((0 : ℤ) :: ds) := by
            rw [hh]
            exact List.mem_cons_of_mem _ hkv
          have hkvv : kv.2 = ((0 : ℤ) :: ds).count kv.1 :=
            buildHist_mem_count _ _ _ hkvmem
          rw [hkvv, hv0, hhead]
          exact hcnt kv.1
        rw [dictMax_head_of_max he0 ht0 hmax, hhead]

/-! ### Peak-map shape invariants of the selector output -/

theorem cellsFold_keys_nodup {α : Type} (sel : List (Cell α)) : ∀ pm : PeakMap,
    (keysOf pm).Nodup →
    (keysOf (sel.foldl (fun pm2 c => pmAppend pm2 c.2.2 c.2.1) pm)).Nodup := by
  induction sel with
  | nil =>
    intro pm h
    exact h
  | cons c t ih =>
    intro pm h
    rw [List.foldl_cons]
    exact ih _ (keysOf_upsert_nodup _ _ _ _ h)

theorem from_magnitudes_keys_nodup {α : Type} [LinearOrder α] (mags : List (List α))
    (spectral_band temporal_band peaks_per_bin : ℕ) :
    (keysOf (to_peaks_from_magnitudes mags spectral_band temporal_band peaks_per_bin)).Nodup := by
  rw [to_peaks_from_magnitudes]
  suffices hgen : ∀ (buckets : List ((ℕ × ℕ) × List (Cell α))) (pm : PeakMap),
      (keysOf pm).Nodup →
      (keysOf (buckets.foldl (fun pm bucket => (nlargest peaks_per_bin bucket.2).foldl
        (fun pm2 c => pmAppend pm2 c.2.2 c.2.1) pm) pm)).Nodup by
    exact hgen _ [] (by simp [keysOf])
  intro buckets
  induction buckets with
  | nil =>
    intro pm h
    exact h
  | cons b t ih =>
    intro pm h
    rw [List.foldl_cons]
    exact ih _ (cellsFold_keys_nodup _ _ h)

theorem cellsFold_values_ne_nil {α : Type} (sel : List (Cell α)) : ∀ pm : PeakMap,
    (∀ e ∈ pm, e.2 ≠ []) →
    ∀ e ∈ sel.foldl (fun pm2 c => pmAppend pm2 c.2.2 c.2.1) pm, e.2 ≠ [] := by
  induction sel with
  | nil =>
    intro pm h
    exact h
  | cons c t ih =>
    intro pm h
    rw [List.foldl_cons]
    refine ih _ ?_
    intro e he
    refine upsert_entries_prop (fun _ v => v ≠ []) _ _ _ _ h ?_ ?_ e he
    · intro v _
      simp
    · simp

theorem from_magnitudes_values_ne_nil {α : Type} [LinearOrder α] (mags : List (List α))
    (spectral_band temporal_band peaks_per_bin : ℕ) :
    ∀ e ∈ to_peaks_from_magnitudes mags spectral_band temporal_band peaks_per_bin,
      e.2 ≠ [] := by
  rw [to_peaks_from_magnitudes]
  suffices hgen : ∀ (buckets : List ((ℕ × ℕ) × List (Cell α))) (pm : PeakMap),
      (∀ e ∈ pm, e.2 ≠ []) →
      ∀ e ∈ buckets.foldl (fun pm bucket => (nlargest peaks_per_bin bucket.2).foldl
        (fun pm2 c => pmAppend pm2 c.2.2 c.2.1) pm) pm, e.2 ≠ [] by
    exact hgen _ [] (by simp)
  intro buckets
  induction buckets with
  | nil =>
    intro pm h
    exact h
  | cons b t ih =>
    intro pm h
    rw [List.foldl_cons]
    exact ih _ (cellsFold_values_ne_nil _ _ h)

/-- Claim C9.  Whenever synchronising a signal against an exact copy of
itself with identical parameters succeeds, the returned delay is `0`. -/
theorem C9_self_synchronize (S : List ℝ)
    (window_size overlap spectral_band temporal_band peaks_per_bin : ℕ) (d : ℤ)
    (h : synchronize S S window_size overlap spectral_band temporal_band peaks_per_bin
      = .ok d) : d = 0 := by
  rw [synchronize] at h
  cases htp : to_peaks S window_size overlap spectral_band temporal_band peaks_per_bin with
  | error e =>
    rw [htp] at h
    exact absurd h (by simp)
  | ok P =>
    rw [htp] at h
    have h2 : synchronize_core P P = .ok d := h
    have hshape : ∃ mags : List (List ℝ),
        P = to_peaks_from_magnitudes mags spectral_band temporal_band peaks_per_bin := by
      rw [to_peaks] at htp
      split at htp
      · exact absurd htp (by simp)
      · split at htp
        · exact absurd htp (by simp)
        · simp only [Except.ok.injEq] at htp
          exact ⟨_, htp.symm⟩
    obtain ⟨mags, rfl⟩ := hshape
    rcases synchronize_core_self _ (from_magnitudes_keys_nodup mags _ _ _)
      (from_magnitudes_values_ne_nil mags _ _ _) with herr | hok
    · rw [herr] at h2
      exact absurd h2 (by simp)
    · rw [hok] at h2
      simpa using h2.symm

theorem dft_zero_two (k : ℕ) : dft [(0 : ℝ), 0] k = 0 := by
  rw [dft]
  norm_num [List.range_succ]

/-- Witness for C9: synchronising the four-sample zero signal against itself
with `window_size = 2`, `overlap = 0`, `spectral_band = temporal_band =
peaks_per_bin = 1` succeeds and returns delay `0`. -/
theorem C9_self_synchronize_witness :
    synchronize ([0, 0, 0, 0] : List ℝ) ([0, 0, 0, 0] : List ℝ) 2 0 1 1 1 = .ok 0 ∧ (0 : ℤ) = 0 := by
  have hrw : rolling_window ([0, 0, 0, 0] : List ℝ) 2 0 = .ok ([[0, 0], [0, 0]], 2) := rfl
  have hfm : fourier_magnitudes [(0 : ℝ), 0] = .ok [0] := by
    rw [fourier_magnitudes_ok _ (by norm_num)]
    norm_num [List.range_succ, dft_zero_two, npRound2_zero]
  have hmapE : mapExcept fourier_magnitudes [[(0 : ℝ), 0], [(0 : ℝ), 0]] = .ok [[0], [0]] := by
    simp only [mapExcept, hfm]
  have htp : to_peaks ([0, 0, 0, 0] : List ℝ) 2 0 1 1 1 = .ok [(0, [0, 1])] := by
    rw [to_peaks, hrw]
    show (match mapExcept fourier_magnitudes [[(0 : ℝ), 0], [(0 : ℝ), 0]] with
      | Except.error e => (Except.error e : Except PyErr PeakMap)
      | Except.ok mags => Except.ok (to_peaks_from_magnitudes mags 1 1 1)) =
      Except.ok [(0, [0, 1])]
    rw [hmapE]
    rfl
  have hsync : synchronize ([0, 0, 0, 0] : List ℝ) ([0, 0, 0, 0] : List ℝ) 2 0 1 1 1 = .ok 0 := by
    rw [synchronize, htp]
    rfl
  exact ⟨hsync, C9_self_synchronize ([0, 0, 0, 0] : List ℝ) 2 0 1 1 1 0 hsync⟩

end AudioSync
